import Mathlib

/-!
Shallow embedding of `rust-order-maintenance` (src/src/lib.rs), an
order-maintenance structure: a cyclic doubly linked ring of elements, each
carrying a `u64` tag, with `front` anchoring traversal.

Modelling conventions:
* `HashMap<T, Position<T>>` is modelled as an association list with unique
  keys; `insert` replaces in place or appends, `remove` deletes, `get_mut`
  maps over the matching entry.  Only lookup/length are observable, so this
  is a faithful model of the hash map.
* `u64` tags are `Nat`; the code only adds with explicit clamping at
  `u64::MAX` (`insert_after`) or stays inside a `mask + 1`-sized block
  (`rebalance`), so arithmetic that could wrap carries an explicit
  `% 2 ^ 64`.
* Panics (`unwrap` on a missing key, failed `assert!`) are modelled as
  `none`; loops whose termination is not structural take fuel and return
  `none` on exhaustion.
* The only floating-point state in the source is `rebalance`'s
  `threshold`/`multiplier` pair; the sole observation of it is the test
  `(increment as f64) >= threshold`, where `threshold` is a function of the
  widening-iteration count alone (the structure's length is fixed during
  one rebalance).  That test is abstracted as a boolean parameter
  `accept : Nat -> Nat -> Bool` taking the iteration index and the computed
  integer increment.
-/

/-- The per-element record of `struct Position<T> { prev, next, tag }`. -/
structure Position (T : Type) where
  prev : T
  next : T
  tag : Nat
deriving DecidableEq, Repr

/-- `2 ^ 64`, the modulus of `u64` arithmetic. -/
def U64 : Nat := 2 ^ 64

/-- `u64::MAX`. -/
def U64MAX : Nat := 2 ^ 64 - 1

/-- Rust `a & !m` on `u64`: clear the bits of `m` out of `a`.  For
`m <= u64::MAX` the complement `!m` is `U64MAX - m`. -/
def andNot (a m : Nat) : Nat := Nat.land a (U64MAX - m)

/-- Rust `a.cmp(&b)` on `u64` values. -/
def natCmp (a b : Nat) : Ordering :=
  if a < b then Ordering.lt else if a = b then Ordering.eq else Ordering.gt

/-- `HashMap::get`: first (and, with unique keys, only) entry for `k`. -/
def lookupPos {T : Type} [DecidableEq T] (k : T) :
    List (T × Position T) → Option (Position T)
  | [] => none
  | kp :: rest => if kp.1 = k then some kp.2 else lookupPos k rest

/-- `HashMap::get_mut(k).map(f)`: rewrite the entry at `k` in place (no-op
when `k` is absent). -/
def updatePos {T : Type} [DecidableEq T] (k : T) (f : Position T → Position T)
    (l : List (T × Position T)) : List (T × Position T) :=
  l.map (fun kp => if kp.1 = k then (kp.1, f kp.2) else kp)

/-- `HashMap::remove(k)`'s effect on the table. -/
def eraseKey {T : Type} [DecidableEq T] (k : T) (l : List (T × Position T)) :
    List (T × Position T) :=
  l.filter (fun kp => decide (kp.1 ≠ k))

/-- `HashMap::insert(k, v)`: replace the entry in place when `k` is present,
append it otherwise. -/
def insertKV {T : Type} [DecidableEq T] (k : T) (v : Position T)
    (l : List (T × Position T)) : List (T × Position T) :=
  match lookupPos k l with
  | some _ => updatePos k (fun _ => v) l
  | none => l ++ [(k, v)]

/-- `struct OrderMaintenance<T> { positions, front }`. -/
structure OrderMaintenance (T : Type) where
  positions : List (T × Position T)
  front : Option T
deriving DecidableEq, Repr

namespace OrderMaintenance

variable {T : Type} [DecidableEq T]

/-- `OrderMaintenance::new()`. -/
def new : OrderMaintenance T := { positions := [], front := none }

/-- `OrderMaintenance::len()`. -/
def len (om : OrderMaintenance T) : Nat := om.positions.length

/-- `OrderMaintenance::compare(a, b)`: the two `?`-propagated tag lookups
followed by `a_tag.cmp(&b_tag)`. -/
def compare (om : OrderMaintenance T) (a b : T) : Option Ordering :=
  match lookupPos a om.positions with
  | none => none
  | some pa =>
    match lookupPos b om.positions with
    | none => none
    | some pb => some (natCmp pa.tag pb.tag)

/-- `OrderMaintenance::remove(value)`: delete the record, then splice the
two neighbours (each a no-op `get_mut ... map` when the neighbour is the
removed element itself).  `front` is not touched.  Returns the new state and
the `bool` result. -/
def remove (value : T) (om : OrderMaintenance T) : OrderMaintenance T × Bool :=
  match lookupPos value om.positions with
  | none => (om, false)
  | some pos =>
    let ps1 := eraseKey value om.positions
    let ps2 := updatePos pos.prev (fun p => { p with next := pos.next }) ps1
    let ps3 := updatePos pos.next (fun p => { p with prev := pos.prev }) ps2
    ({ om with positions := ps3 }, true)

/-- `OrderMaintenance::insert_only(value)`: `assert!(len == 0)` (a failed
assertion panics, modelled as `none`), then the singleton ring with tag 0
and `front = Some(value)`. -/
def insert_only (value : T) (om : OrderMaintenance T) :
    Option (OrderMaintenance T) :=
  if om.positions.length = 0 then
    some { positions := insertKV value ⟨value, value, 0⟩ om.positions,
           front := some value }
  else
    none

/-- The backward gathering loop of `rebalance` (lines 264-284): keep pulling
`first` backwards while `first != front` and the previous element's masked
tag equals `base_tag`.  `prev` is the already-looked-up predecessor of
`first`; a missing key is an `unwrap` panic (`none`); fuel exhaustion
(impossible on a well-formed ring) is also `none`. -/
def gather_back (ps : List (T × Position T)) (front : T) (base mask : Nat) :
    Nat → T → T → Nat → Option (T × Nat)
  | 0, _, _, _ => none
  | f + 1, first, prev, num =>
    match lookupPos prev ps with
    | none => none
    | some pp =>
      if first ≠ front ∧ andNot pp.tag mask = base then
        gather_back ps front base mask f prev pp.prev (num + 1)
      else
        some (first, num)

/-- The forward gathering loop of `rebalance` (lines 285-305): keep pushing
`last` forwards while the candidate `next` is not `front` and its masked tag
equals `base_tag`. -/
def gather_fwd (ps : List (T × Position T)) (front : T) (base mask : Nat) :
    Nat → T → T → Nat → Option (T × Nat)
  | 0, _, _, _ => none
  | f + 1, last, next, num =>
    match lookupPos next ps with
    | none => none
    | some np =>
      if next ≠ front ∧ andNot np.tag mask = base then
        gather_fwd ps front base mask f next np.next (num + 1)
      else
        some (last, num)

/-- The relabelling walk of `rebalance` (lines 308-316): from `first`,
assign `new_tag`, step to `next`, bump `new_tag` by `increment`, until
`last` has been assigned.  `new_tag += increment` is `u64` addition. -/
def relabel_seg (last : T) (inc : Nat) :
    Nat → T → Nat → List (T × Position T) → Option (List (T × Position T))
  | 0, _, _, _ => none
  | f + 1, item, newTag, ps =>
    match lookupPos item ps with
    | none => none
    | some ip =>
      let ps' := updatePos item (fun p => { p with tag := newTag }) ps
      if item = last then some ps'
      else relabel_seg last inc f ip.next ((newTag + inc) % U64) ps'

/-- The outer widening loop of `rebalance` (lines 263-322).  Arguments after
the fuel: iteration index `k` (how many times the threshold has been
multiplied, used by `accept`), `base_tag`, `mask`, `first`, `last`,
`num_items`, and the table.  `increment = (mask + 1) / num_items` and
`mask = (mask << 1) + 1` are `u64` operations, hence the `% U64`. -/
def reb_loop (accept : Nat → Nat → Bool) (front : T) :
    Nat → Nat → Nat → Nat → T → T → Nat → List (T × Position T) →
    Option (List (T × Position T))
  | 0, _, _, _, _, _, _, _ => none
  | f + 1, k, base, mask, first, last, num, ps =>
    match lookupPos first ps with
    | none => none
    | some fp =>
      match gather_back ps front base mask (ps.length + 1) first fp.prev num with
      | none => none
      | some (first', num') =>
        match lookupPos last ps with
        | none => none
        | some lp =>
          match gather_fwd ps front base mask (ps.length + 1) last lp.next num' with
          | none => none
          | some (last', num2) =>
            let inc := ((mask + 1) % U64) / num2
            if accept k inc then
              relabel_seg last' inc (ps.length + 1) first' base ps
            else
              let mask' := (mask * 2) % U64 + 1
              reb_loop accept front f (k + 1) (andNot base mask') mask'
                first' last' num2 ps

/-- `OrderMaintenance::rebalance(value)` (lines 254-323): early `return`
when `front` is `None`, an `unwrap` of `value`'s record, then the widening
loop starting from mask 0, threshold iteration 0, segment `{value}`.
`front` is never written. -/
def rebalance (accept : Nat → Nat → Bool) (fuel : Nat) (value : T)
    (om : OrderMaintenance T) : Option (OrderMaintenance T) :=
  match om.front with
  | none => some om
  | some front =>
    match lookupPos value om.positions with
    | none => none
    | some vpos =>
      match reb_loop accept front fuel 0 vpos.tag 0 value value 1 om.positions with
      | none => none
      | some ps => some { om with positions := ps }

/-- `OrderMaintenance::insert_after(after, value)` (lines 100-125): two
`unwrap`ped lookups (of `after` and of its successor), the clamped candidate
tag, the three table writes (insert `value`, relink `after.next` and the old
successor's `prev`), then `rebalance(value)` exactly when the candidate
collides with either neighbouring tag.  (`debug`/`verify_valid_structure`
are diagnostics without state effect and are not modelled.) -/
def insert_after (accept : Nat → Nat → Bool) (fuel : Nat) (after value : T)
    (om : OrderMaintenance T) : Option (OrderMaintenance T) :=
  match lookupPos after om.positions with
  | none => none
  | some apos =>
    match lookupPos apos.next om.positions with
    | none => none
    | some npos =>
      let tag := if apos.tag = U64MAX then apos.tag else apos.tag + 1
      let ps1 := insertKV value ⟨after, apos.next, tag⟩ om.positions
      let ps2 := updatePos after (fun p => { p with next := value }) ps1
      let ps3 := updatePos apos.next (fun p => { p with prev := value }) ps2
      let om' : OrderMaintenance T := { om with positions := ps3 }
      if tag = apos.tag ∨ tag = npos.tag then rebalance accept fuel value om'
      else some om'

/-- One step of `IterWithTag::next` run to completion: yield
`(current, tag)`, move to `next` unless `next` equals the iterator's
`first`, in which case stop.  A missing `current` is the iterator's
`unwrap` panic. -/
def iterGo (om : OrderMaintenance T) (first : Option T) :
    Nat → Option T → Option (List (T × Nat))
  | _, none => some []
  | 0, some _ => none
  | f + 1, some current =>
    match lookupPos current om.positions with
    | none => none
    | some p =>
      (iterGo om first f (if some p.next = first then none else some p.next)).map
        (fun l => (current, p.tag) :: l)

/-- `OrderMaintenance::iter_values_with_tags()` collected into a list;
fuel `len + 1` suffices for any state the iterator terminates on. -/
def iter_values_with_tags (om : OrderMaintenance T) : Option (List (T × Nat)) :=
  iterGo om om.front (om.positions.length + 1) om.front

end OrderMaintenance

/-- The public operations, as calls a client can issue. -/
inductive Op (T : Type) where
  | insert_only (v : T)
  | insert_after (a v : T)
  | remove (v : T)
deriving DecidableEq, Repr

/-- Apply one public operation; `remove` is total, the two inserts can
panic (`none`). -/
def applyOp {T : Type} [DecidableEq T] (accept : Nat → Nat → Bool) (fuel : Nat)
    (om : OrderMaintenance T) : Op T → Option (OrderMaintenance T)
  | Op.insert_only v => OrderMaintenance.insert_only v om
  | Op.insert_after a v => OrderMaintenance.insert_after accept fuel a v om
  | Op.remove v => some (OrderMaintenance.remove v om).1

/-- Run a sequence of public operations; a panic aborts the run. -/
def runOps {T : Type} [DecidableEq T] (accept : Nat → Nat → Bool) (fuel : Nat) :
    List (Op T) → OrderMaintenance T → Option (OrderMaintenance T)
  | [], om => some om
  | op :: rest, om =>
    match applyOp accept fuel om op with
    | none => none
    | some om' => runOps accept fuel rest om'

/-- The element identities of the spec's concrete scenario. -/
inductive Person where
  | bob
  | carol
  | james
  | gene
deriving DecidableEq, Repr

/-- Where `front` ends up after a list of operations that started from
`init`: each `insert_only` sets it to its seed, nothing else writes it. -/
def lastSeedFront {T : Type} (init : Option T) (ops : List (Op T)) : Option T :=
  ops.foldl
    (fun acc op =>
      match op with
      | Op.insert_only v => some v
      | _ => acc)
    init

/-- The table just after linking `james` in (third scenario operation),
at the moment `rebalance` is entered with pivot `james`. -/
def scenPs3 : List (Person × Position Person) :=
  [(Person.bob, ⟨Person.carol, Person.james, 0⟩),
   (Person.carol, ⟨Person.james, Person.bob, 1⟩),
   (Person.james, ⟨Person.bob, Person.carol, 1⟩)]

/-- The table after `rebalance` relabels the whole ring with increment `i`:
`bob ↦ 0`, `james ↦ i`, `carol ↦ 2 * i`. -/
def relPs (i : Nat) : List (Person × Position Person) :=
  [(Person.bob, ⟨Person.carol, Person.james, 0⟩),
   (Person.carol, ⟨Person.james, Person.bob, 2 * i⟩),
   (Person.james, ⟨Person.bob, Person.carol, i⟩)]

/-- The table after the fourth scenario operation inserts `gene` after
`carol` with tag `2 * i + 1`. -/
def finalPs (i : Nat) : List (Person × Position Person) :=
  [(Person.bob, ⟨Person.gene, Person.james, 0⟩),
   (Person.carol, ⟨Person.james, Person.gene, 2 * i⟩),
   (Person.james, ⟨Person.bob, Person.carol, i⟩),
   (Person.gene, ⟨Person.carol, Person.bob, 2 * i + 1⟩)]

/-- A concrete two-element ring `0 <-> 1` with tags 0 and 1. -/
def twoRing : OrderMaintenance Nat :=
  ⟨[(0, ⟨1, 1, 0⟩), (1, ⟨0, 0, 1⟩)], some 0⟩

/-- One possible acceptance oracle for the scenario's single rebalance:
accept exactly widening iteration 2 (whose computed increment is
`4 / 3 = 1`). -/
def scenAccept : Nat → Nat → Bool := fun k i => decide (k = 2 ∧ i = 1)

section Lemmas

variable {T : Type} [DecidableEq T]

theorem lookupPos_updatePos_self (k : T) (f : Position T → Position T)
    (l : List (T × Position T)) :
    lookupPos k (updatePos k f l) = (lookupPos k l).map f := by
  induction l with
  | nil => rfl
  | cons kp rest ih =>
    by_cases h : kp.1 = k
    · simp [updatePos, lookupPos, h]
    · simpa [updatePos, lookupPos, h] using ih

theorem lookupPos_updatePos_ne {j k : T} (h : j ≠ k) (f : Position T → Position T)
    (l : List (T × Position T)) :
    lookupPos j (updatePos k f l) = lookupPos j l := by
  induction l with
  | nil => rfl
  | cons kp rest ih =>
    by_cases hk : kp.1 = k
    · simpa [updatePos, lookupPos, hk, Ne.symm h] using ih
    · by_cases hj : kp.1 = j
      · simp [updatePos, lookupPos, hk, hj, h]
      · simpa [updatePos, lookupPos, hk, hj] using ih

theorem lookupPos_eraseKey_self (k : T) (l : List (T × Position T)) :
    lookupPos k (eraseKey k l) = none := by
  induction l with
  | nil => rfl
  | cons kp rest ih =>
    by_cases h : kp.1 = k
    · simpa [eraseKey, h] using ih
    · simpa [eraseKey, lookupPos, h] using ih

theorem lookupPos_eraseKey_ne {j k : T} (h : j ≠ k) (l : List (T × Position T)) :
    lookupPos j (eraseKey k l) = lookupPos j l := by
  induction l with
  | nil => rfl
  | cons kp rest ih =>
    by_cases hk : kp.1 = k
    · have hj : ¬ kp.1 = j := fun e => h (by rw [← e, hk])
      simpa [eraseKey, lookupPos, hk, hj, Ne.symm h] using ih
    · by_cases hj : kp.1 = j
      · simp [eraseKey, lookupPos, hk, hj, h]
      · simpa [eraseKey, lookupPos, hk, hj] using ih

theorem length_updatePos (k : T) (f : Position T → Position T)
    (l : List (T × Position T)) :
    (updatePos k f l).length = l.length := by
  simp [updatePos]

theorem eraseKey_of_lookupPos_none {k : T} {l : List (T × Position T)}
    (h : lookupPos k l = none) : eraseKey k l = l := by
  induction l with
  | nil => rfl
  | cons kp rest ih =>
    by_cases hk : kp.1 = k
    · simp [lookupPos, hk] at h
    · simp only [lookupPos, if_neg hk] at h
      simp only [eraseKey, List.filter_cons, decide_not]
      simp [hk]
      simpa [eraseKey] using ih h

theorem lookupPos_none_of_not_mem_keys {k : T} {l : List (T × Position T)}
    (h : k ∉ l.map Prod.fst) : lookupPos k l = none := by
  induction l with
  | nil => rfl
  | cons kp rest ih =>
    rw [List.map_cons] at h
    have h1 : ¬ kp.1 = k := fun e => h (by rw [e]; exact List.mem_cons_self _ _)
    have h2 : k ∉ rest.map Prod.fst := fun m => h (List.mem_cons_of_mem _ m)
    simpa [lookupPos, h1] using ih h2

theorem length_eraseKey_of_nodup {k : T} {p : Position T}
    {l : List (T × Position T)} (hnd : (l.map Prod.fst).Nodup)
    (h : lookupPos k l = some p) :
    (eraseKey k l).length + 1 = l.length := by
  induction l with
  | nil => simp [lookupPos] at h
  | cons kp rest ih =>
    rw [List.map_cons, List.nodup_cons] at hnd
    by_cases hk : kp.1 = k
    · have hrest : lookupPos k rest = none :=
        lookupPos_none_of_not_mem_keys (by rw [← hk]; exact hnd.1)
      have he : eraseKey k (kp :: rest) = eraseKey k rest := by
        simp [eraseKey, hk]
      rw [he, eraseKey_of_lookupPos_none hrest, List.length_cons]
    · have h' : lookupPos k rest = some p := by simpa [lookupPos, hk] using h
      have he : eraseKey k (kp :: rest) = kp :: eraseKey k rest := by
        simp [eraseKey, hk]
      have := ih hnd.2 h'
      rw [he, List.length_cons, List.length_cons]
      omega

/-- `updatePos` with a field rewrite that keeps `tag` leaves every looked-up
tag unchanged. -/
theorem lookupPos_tag_updatePos (k : T) (f : Position T → Position T)
    (hf : ∀ p, (f p).tag = p.tag) (j : T) (l : List (T × Position T)) :
    (lookupPos j (updatePos k f l)).map Position.tag =
      (lookupPos j l).map Position.tag := by
  by_cases hj : j = k
  · subst hj
    rw [lookupPos_updatePos_self]
    cases lookupPos j l <;> simp [hf]
  · rw [lookupPos_updatePos_ne hj]

theorem lookupPos_updatePos_eq_none {j k : T} {f : Position T → Position T}
    {l : List (T × Position T)} :
    lookupPos j (updatePos k f l) = none ↔ lookupPos j l = none := by
  by_cases hj : j = k
  · subst hj
    rw [lookupPos_updatePos_self]
    cases lookupPos j l <;> simp
  · rw [lookupPos_updatePos_ne hj]

theorem lookupPos_append_single {k : T} {v : Position T}
    {l : List (T × Position T)} (h : lookupPos k l = none) :
    lookupPos k (l ++ [(k, v)]) = some v := by
  induction l with
  | nil => simp [lookupPos]
  | cons kp rest ih =>
    by_cases hk : kp.1 = k
    · simp [lookupPos, hk] at h
    · simp only [lookupPos, if_neg hk] at h
      simpa [lookupPos, hk] using ih h

theorem lookupPos_insertKV_self (k : T) (v : Position T)
    (l : List (T × Position T)) :
    lookupPos k (insertKV k v l) = some v := by
  unfold insertKV
  cases h : lookupPos k l with
  | none => exact lookupPos_append_single h
  | some p => rw [lookupPos_updatePos_self, h]; rfl

/-- `rebalance` never writes `front`. -/
theorem front_rebalance {accept : Nat → Nat → Bool} {fuel : Nat} {v : T}
    {om om' : OrderMaintenance T}
    (h : OrderMaintenance.rebalance accept fuel v om = some om') :
    om'.front = om.front := by
  cases hf : om.front with
  | none =>
    simp only [OrderMaintenance.rebalance, hf] at h
    rw [← Option.some.inj h]
    exact hf
  | some front =>
    simp only [OrderMaintenance.rebalance, hf] at h
    cases hv : lookupPos v om.positions with
    | none =>
      simp only [hv] at h
      exact Option.noConfusion h
    | some vpos =>
      simp only [hv] at h
      cases hr : OrderMaintenance.reb_loop accept front fuel 0 vpos.tag 0 v v 1
          om.positions with
      | none =>
        simp only [hr] at h
        exact Option.noConfusion h
      | some ps =>
        simp only [hr] at h
        rw [← Option.some.inj h]

/-- `insert_after` never writes `front` (neither directly nor through the
`rebalance` it may invoke). -/
theorem front_insert_after {accept : Nat → Nat → Bool} {fuel : Nat} {a v : T}
    {om om' : OrderMaintenance T}
    (h : OrderMaintenance.insert_after accept fuel a v om = some om') :
    om'.front = om.front := by
  cases ha : lookupPos a om.positions with
  | none =>
    simp only [OrderMaintenance.insert_after, ha] at h
    exact Option.noConfusion h
  | some apos =>
    simp only [OrderMaintenance.insert_after, ha] at h
    cases hn : lookupPos apos.next om.positions with
    | none =>
      simp only [hn] at h
      exact Option.noConfusion h
    | some npos =>
      simp only [hn] at h
      by_cases ht :
          (if apos.tag = U64MAX then apos.tag else apos.tag + 1) = apos.tag ∨
          (if apos.tag = U64MAX then apos.tag else apos.tag + 1) = npos.tag
      · rw [if_pos ht] at h
        exact (front_rebalance h).trans rfl
      · rw [if_neg ht] at h
        rw [← Option.some.inj h]

/-- `remove` never writes `front`. -/
theorem front_remove (v : T) (om : OrderMaintenance T) :
    (OrderMaintenance.remove v om).1.front = om.front := by
  unfold OrderMaintenance.remove
  cases lookupPos v om.positions <;> rfl

/-- A successful `insert_only v` sets `front` to `v`. -/
theorem front_insert_only {v : T} {om om' : OrderMaintenance T}
    (h : OrderMaintenance.insert_only v om = some om') : om'.front = some v := by
  unfold OrderMaintenance.insert_only at h
  split at h
  · rw [← Option.some.inj h]
  · cases h

theorem natCmp_lt {a b : Nat} (h : a < b) : natCmp a b = Ordering.lt := by
  unfold natCmp
  rw [if_pos h]

theorem natCmp_gt {a b : Nat} (h : b < a) : natCmp a b = Ordering.gt := by
  unfold natCmp
  rw [if_neg (by omega), if_neg (by omega)]

theorem natCmp_self (a : Nat) : natCmp a a = Ordering.eq := by
  unfold natCmp
  rw [if_neg (by omega), if_pos rfl]

theorem runOps_cons {accept : Nat → Nat → Bool} {fuel : Nat} {op : Op T}
    {ops : List (Op T)} {om om1 : OrderMaintenance T}
    (h : applyOp accept fuel om op = some om1) :
    runOps accept fuel (op :: ops) om = runOps accept fuel ops om1 := by
  simp only [runOps, h]

/-- Evaluate `rebalance` once its widening loop's value is known. -/
theorem rebalance_eval {accept : Nat → Nat → Bool} {fuel : Nat} {v front : T}
    {om : OrderMaintenance T} {vpos : Position T} {ps : List (T × Position T)}
    (hf : om.front = some front)
    (hv : lookupPos v om.positions = some vpos)
    (hl : OrderMaintenance.reb_loop accept front fuel 0 vpos.tag 0 v v 1
      om.positions = some ps) :
    OrderMaintenance.rebalance accept fuel v om = some ⟨ps, om.front⟩ := by
  simp only [OrderMaintenance.rebalance, hf, hv, hl]

/-- The relabelling pass of the scenario's rebalance: pivot segment
`bob, james, carol` (the whole ring), base tag 0, increment `i`. -/
theorem relabel_scen (i : Nat) (hiU : i + i < 18446744073709551616) :
    OrderMaintenance.relabel_seg Person.carol i 4 Person.bob 0 scenPs3 =
      some (relPs i) := by
  have hL64 : U64 = 18446744073709551616 := by norm_num [U64]
  have e : OrderMaintenance.relabel_seg Person.carol i 4 Person.bob 0 scenPs3 =
      some [(Person.bob, ⟨Person.carol, Person.james, 0⟩),
            (Person.carol, ⟨Person.james, Person.bob, ((0 + i) % U64 + i) % U64⟩),
            (Person.james, ⟨Person.bob, Person.carol, (0 + i) % U64⟩)] := rfl
  have m1 : (0 + i) % U64 = i := by
    rw [Nat.zero_add, hL64]
    omega
  rw [e, m1]
  have m2 : (i + i) % U64 = 2 * i := by
    rw [hL64]
    omega
  rw [m2]
  rfl

/-- The first two widening iterations of the scenario's rebalance: both
compute increment 0, which the threshold test never accepts, and together
they grow the segment from `{james}` to the whole ring with mask 3. -/
theorem reb_two_steps (accept : Nat → Nat → Bool) (f : Nat)
    (hz0 : accept 0 0 = false) (hz1 : accept 1 0 = false) :
    OrderMaintenance.reb_loop accept Person.bob (f + 2) 0 1 0 Person.james
      Person.james 1 scenPs3 =
    OrderMaintenance.reb_loop accept Person.bob f 2 0 3 Person.bob
      Person.carol 3 scenPs3 := by
  have e0 : OrderMaintenance.reb_loop accept Person.bob (f + 2) 0 1 0
      Person.james Person.james 1 scenPs3 =
      (if accept 0 0 then
        OrderMaintenance.relabel_seg Person.carol 0 4 Person.james 1 scenPs3
      else
        OrderMaintenance.reb_loop accept Person.bob (f + 1) 1 0 1 Person.james
          Person.carol 2 scenPs3) := rfl
  have e1 : OrderMaintenance.reb_loop accept Person.bob (f + 1) 1 0 1
      Person.james Person.carol 2 scenPs3 =
      (if accept 1 0 then
        OrderMaintenance.relabel_seg Person.carol 0 4 Person.bob 0 scenPs3
      else
        OrderMaintenance.reb_loop accept Person.bob f 2 0 3 Person.bob
          Person.carol 3 scenPs3) := rfl
  rw [e0, hz0, e1, hz1]
  rfl

/-- From iteration 2 on, the scenario's widening loop has gathered the whole
ring (`bob, james, carol`, never crossing `front`), so each iteration only
tests `increment = 2 ^ k / 3`; the first accepted iteration relabels with
that increment.  Any oracle that rejects increment 0 and accepts some
iteration `k ∈ [2, 63]` makes the loop return tags `0, i, 2i` for some
`1 ≤ i ≤ 2 ^ 63 / 3`. -/
theorem reb_from_k (accept : Nat → Nat → Bool) :
    ∀ f k, 2 ≤ k → k ≤ 63 →
      (∃ j, k ≤ j ∧ j ≤ 63 ∧ accept j (2 ^ j / 3) = true) →
      64 ≤ f + k →
      ∃ i, 1 ≤ i ∧ i ≤ 2 ^ 63 / 3 ∧
        OrderMaintenance.reb_loop accept Person.bob f k 0 (2 ^ k - 1)
          Person.bob Person.carol 3 scenPs3 = some (relPs i) := by
  intro f
  induction f with
  | zero =>
    intro k _ h63 _ hf
    exact absurd hf (by omega)
  | succ f ih =>
    intro k h2 h63 hex hf
    have hL63 : (2:Nat) ^ 63 = 9223372036854775808 := by norm_num
    have hL64 : U64 = 18446744073709551616 := by norm_num [U64]
    have hd63 : (2:Nat) ^ 63 / 3 = 3074457345618258602 := by norm_num
    have hk63 : (2:Nat) ^ k ≤ 2 ^ 63 := Nat.pow_le_pow_right (by norm_num) h63
    have hkpos : 0 < (2:Nat) ^ k := Nat.two_pow_pos k
    have e1 : (2 ^ k - 1 + 1) % U64 = 2 ^ k := by
      rw [Nat.sub_add_cancel (by omega), hL64]
      omega
    have ebody : OrderMaintenance.reb_loop accept Person.bob (f + 1) k 0
        (2 ^ k - 1) Person.bob Person.carol 3 scenPs3 =
        (if accept k ((2 ^ k - 1 + 1) % U64 / 3) then
          OrderMaintenance.relabel_seg Person.carol ((2 ^ k - 1 + 1) % U64 / 3) 4
            Person.bob 0 scenPs3
        else
          OrderMaintenance.reb_loop accept Person.bob f (k + 1)
            (andNot 0 ((2 ^ k - 1) * 2 % U64 + 1)) ((2 ^ k - 1) * 2 % U64 + 1)
            Person.bob Person.carol 3 scenPs3) := rfl
    rw [ebody, e1]
    have h4 : (4:Nat) ≤ 2 ^ k := by
      calc (4:Nat) = 2 ^ 2 := by norm_num
        _ ≤ 2 ^ k := Nat.pow_le_pow_right (by norm_num) h2
    have hdivle : 2 ^ k / 3 ≤ 2 ^ 63 / 3 := Nat.div_le_div_right hk63
    cases haccept : accept k (2 ^ k / 3) with
    | true =>
      rw [if_pos rfl]
      refine ⟨2 ^ k / 3, by omega, hdivle, ?_⟩
      exact relabel_scen _ (by omega)
    | false =>
      rw [if_neg (by simp)]
      obtain ⟨j, hj1, hj2, hj3⟩ := hex
      have hjk : j ≠ k := by
        intro e
        rw [e] at hj3
        rw [hj3] at haccept
        exact Bool.noConfusion haccept
      have hk62 : k ≤ 62 := by
        rcases Nat.lt_or_ge k 63 with h | h
        · omega
        · exact absurd (by omega : j = k) hjk
      have hp : (2:Nat) ^ (k + 1) = 2 * 2 ^ k := by
        rw [pow_succ]
        ring
      have hk631 : (2:Nat) ^ (k + 1) ≤ 2 ^ 63 :=
        Nat.pow_le_pow_right (by norm_num) (by omega)
      have hm : (2 ^ k - 1) * 2 % U64 + 1 = 2 ^ (k + 1) - 1 := by
        rw [hL64]
        rw [hL63] at hk631
        omega
      rw [hm, show andNot 0 (2 ^ (k + 1) - 1) = 0 from Nat.zero_and _]
      exact ih (k + 1) (by omega) (by omega) ⟨j, by omega, hj2, hj3⟩ (by omega)

/-- The scenario's rebalance (pivot `james`, state `scenPs3`): for any
oracle rejecting increment 0 and accepting some iteration in `[2, 63]`,
it terminates with the whole ring relabelled `bob ↦ 0`, `james ↦ i`,
`carol ↦ 2i`. -/
theorem rebalance_scenario (accept : Nat → Nat → Bool) (fuel : Nat)
    (hz : ∀ j, accept j 0 = false)
    (hex : ∃ k, 2 ≤ k ∧ k ≤ 63 ∧ accept k (2 ^ k / 3) = true)
    (hfuel : 64 ≤ fuel) :
    ∃ i, 1 ≤ i ∧ i ≤ 2 ^ 63 / 3 ∧
      OrderMaintenance.rebalance accept fuel Person.james
        ⟨scenPs3, some Person.bob⟩ = some ⟨relPs i, some Person.bob⟩ := by
  obtain ⟨f0, rfl⟩ : ∃ f0, fuel = f0 + 2 := ⟨fuel - 2, by omega⟩
  obtain ⟨i, h1, h2, hloop⟩ :=
    reb_from_k accept f0 2 (by omega) (by omega) hex (by omega)
  refine ⟨i, h1, h2, ?_⟩
  have hloop2 : OrderMaintenance.reb_loop accept Person.bob (f0 + 2) 0 1 0
      Person.james Person.james 1 scenPs3 = some (relPs i) := by
    rw [reb_two_steps accept f0 (hz 0) (hz 1),
      show (3:Nat) = 2 ^ 2 - 1 by norm_num]
    exact hloop
  exact rebalance_eval rfl rfl hloop2

/-- The fourth scenario operation: inserting `gene` after `carol` on the
relabelled ring assigns tag `2i + 1` (no clamp, no rebalance). -/
theorem insert_gene (accept : Nat → Nat → Bool) (fuel : Nat) (i : Nat)
    (h1 : 1 ≤ i) (h2 : i ≤ 2 ^ 63 / 3) :
    OrderMaintenance.insert_after accept fuel Person.carol Person.gene
      ⟨relPs i, some Person.bob⟩ = some ⟨finalPs i, some Person.bob⟩ := by
  have hd : (2:Nat) ^ 63 / 3 = 3074457345618258602 := by norm_num
  have hM : U64MAX = 18446744073709551615 := by norm_num [U64MAX]
  have e : OrderMaintenance.insert_after accept fuel Person.carol Person.gene
      ⟨relPs i, some Person.bob⟩ =
      (if (if 2 * i = U64MAX then 2 * i else 2 * i + 1) = 2 * i ∨
          (if 2 * i = U64MAX then 2 * i else 2 * i + 1) = 0 then
        OrderMaintenance.rebalance accept fuel Person.gene
          ⟨[(Person.bob, ⟨Person.gene, Person.james, 0⟩),
            (Person.carol, ⟨Person.james, Person.gene, 2 * i⟩),
            (Person.james, ⟨Person.bob, Person.carol, i⟩),
            (Person.gene, ⟨Person.carol, Person.bob,
              if 2 * i = U64MAX then 2 * i else 2 * i + 1⟩)], some Person.bob⟩
      else
        some ⟨[(Person.bob, ⟨Person.gene, Person.james, 0⟩),
            (Person.carol, ⟨Person.james, Person.gene, 2 * i⟩),
            (Person.james, ⟨Person.bob, Person.carol, i⟩),
            (Person.gene, ⟨Person.carol, Person.bob,
              if 2 * i = U64MAX then 2 * i else 2 * i + 1⟩)],
          some Person.bob⟩) := rfl
  have hIF : (if 2 * i = U64MAX then 2 * i else 2 * i + 1) = 2 * i + 1 :=
    if_neg (by rw [hM]; omega)
  rw [e, hIF, if_neg (by omega)]
  rfl

end Lemmas

section ClaimTheorems

variable {T : Type} [DecidableEq T]

/-- Claim C8: `compare(a, b)` returns the absent signal (`None`) exactly
when at least one operand is not a current member; and on `(a, a)` the
result is `Some(Equal)` precisely when `a` is a member (so every member
compares `Equal` to itself). -/
theorem compare_absent_iff_and_self_eq (om : OrderMaintenance T) (a b : T) :
    (OrderMaintenance.compare om a b = none ↔
      lookupPos a om.positions = none ∨ lookupPos b om.positions = none) ∧
    OrderMaintenance.compare om a a =
      (lookupPos a om.positions).map (fun _ => Ordering.eq) := by
  constructor
  · cases ha : lookupPos a om.positions <;>
      cases hb : lookupPos b om.positions <;>
        simp [OrderMaintenance.compare, ha, hb]
  · cases ha : lookupPos a om.positions <;>
      simp [OrderMaintenance.compare, ha, natCmp]

/-- Claim C9: `insert_only(value)` on a non-empty structure fails explicitly
(the `assert!` panics, so no state is produced and nothing is mutated); on
an empty structure it creates the singleton ring in which `value` is its own
`prev` and `next` with tag 0, and sets `front` to `value`. -/
theorem insert_only_spec (v : T) (om : OrderMaintenance T) :
    OrderMaintenance.insert_only v om =
      if om.positions.length = 0 then
        some { positions := [(v, ⟨v, v, 0⟩)], front := some v }
      else none := by
  by_cases h : om.positions.length = 0
  · have h0 : om.positions = [] := List.length_eq_zero.mp h
    simp [OrderMaintenance.insert_only, h, h0, insertKV, lookupPos]
  · simp [OrderMaintenance.insert_only, h]

/-- Claim C5: `insert_after` with an `after` that is not a member fails —
the very first statement of the function is the lookup of `after`, whose
`unwrap` panics — and this happens before any write to the structure: the
call produces no successor state at all. -/
theorem insert_after_unknown_after_fails (accept : Nat → Nat → Bool)
    (fuel : Nat) (after value : T) (om : OrderMaintenance T)
    (h : lookupPos after om.positions = none) :
    OrderMaintenance.insert_after accept fuel after value om = none := by
  simp [OrderMaintenance.insert_after, h]

theorem insert_after_unknown_after_fails_witness :
    lookupPos 7 (OrderMaintenance.new : OrderMaintenance Nat).positions = none ∧
    OrderMaintenance.insert_after (fun _ _ => false) 64 7 1
      (OrderMaintenance.new : OrderMaintenance Nat) = none :=
  ⟨rfl, insert_after_unknown_after_fails _ _ _ _ _ rfl⟩

/-- Claim C1 (exhibiting the code bug): on the reachable run seed(bob);
insert_after(bob, carol); remove(bob), `remove` leaves `front = Some(bob)`
although bob is no longer in the table, while carol is (len = 1).  So after
this completed public operation front holds no tag at all — in particular
not the minimum — and walking forward from front is impossible: the
iterator's first `unwrap` panics (`none` here).  The code's own
`verify_list_integrity` panics on this very state. -/
theorem front_minimum_violated_after_remove_front :
    (runOps (fun _ _ => false) 64
        [Op.insert_only Person.bob, Op.insert_after Person.bob Person.carol,
         Op.remove Person.bob]
        (OrderMaintenance.new : OrderMaintenance Person)).map
        (fun om => (om.front, lookupPos Person.bob om.positions,
          om.positions.length, om.iter_values_with_tags)) =
      some (some Person.bob, none, 1, none) := by
  rfl

/-- Claim C2 (exhibiting the code bug): seed(bob); remove(bob) leaves an
empty structure whose `front` is still `Some(bob)`: front is defined while
the structure is empty, and names a non-member — `remove` never updates
`front`. -/
theorem front_defined_on_empty_after_remove :
    (runOps (fun _ _ => false) 64
        [Op.insert_only Person.bob, Op.remove Person.bob]
        (OrderMaintenance.new : OrderMaintenance Person)).map
        (fun om => (om.front, om.positions.length)) =
      some (some Person.bob, 0) := by
  rfl

/-- Claim C10, counterexample: remove the seed and seed again — `front`
then names the new seed, not the originally seeded element, so "front still
names the originally seeded element" fails for sequences containing a
second `insert_only`. -/
theorem front_not_original_seed_after_reseed :
    (runOps (fun _ _ => false) 64
        [Op.insert_only 0, Op.remove 0, Op.insert_only 1]
        (OrderMaintenance.new : OrderMaintenance Nat)).map
        OrderMaintenance.front = some (some 1) ∧
    some 1 ≠ some (0 : Nat) :=
  ⟨rfl, by decide⟩

/-- Claim C10 (amended): neither `insert_after` nor `remove` (nor the
`rebalance` inside `insert_after`) ever writes `front`; it is written only
by `new` (to none) and by `insert_only` (to its seed).  Hence after any
panic-free run, `front` names the most recently seeded element (the
original seed, for every sequence with no later `insert_only`) — even after
that element has been removed. -/
theorem front_is_last_seed (accept : Nat → Nat → Bool) (fuel : Nat)
    (ops : List (Op T)) (om om' : OrderMaintenance T)
    (h : runOps accept fuel ops om = some om') :
    om'.front = lastSeedFront om.front ops := by
  induction ops generalizing om with
  | nil =>
    simp only [runOps] at h
    rw [← Option.some.inj h]
    rfl
  | cons op rest ih =>
    simp only [runOps] at h
    cases hop : applyOp accept fuel om op with
    | none => rw [hop] at h; cases h
    | some om1 =>
      rw [hop] at h
      have h2 : om'.front = lastSeedFront om1.front rest := ih om1 h
      rw [h2]
      cases op with
      | insert_only v =>
        have hf : om1.front = some v :=
          front_insert_only (by simpa [applyOp] using hop)
        simp [lastSeedFront, hf]
      | insert_after a v =>
        have hf : om1.front = om.front :=
          front_insert_after (by simpa [applyOp] using hop)
        simp [lastSeedFront, hf]
      | remove v =>
        have hf : om1.front = om.front := by
          have he : (OrderMaintenance.remove v om).1 = om1 := by
            simpa [applyOp] using hop
          rw [← he]
          exact front_remove v om
        simp [lastSeedFront, hf]

theorem front_is_last_seed_witness :
    runOps (fun _ _ => false) 64
        [Op.insert_only 0, Op.insert_after 0 1, Op.remove 0]
        (OrderMaintenance.new : OrderMaintenance Nat) =
      some ⟨[(1, ⟨1, 1, 1⟩)], some 0⟩ ∧
    (⟨[(1, ⟨1, 1, 1⟩)], some 0⟩ : OrderMaintenance Nat).front =
      lastSeedFront (OrderMaintenance.new : OrderMaintenance Nat).front
        [Op.insert_only 0, Op.insert_after 0 1, Op.remove 0] :=
  ⟨by rfl, front_is_last_seed (fun _ _ => false) 64 _ _ _ (by rfl)⟩

/-- Claim C3: for `insert_after(after, value)` with `after` a member (whose
successor is present, as ring integrity guarantees for reachable states),
the new element's tag is `tag(after) + 1` except that it is clamped (not
wrapped) at `u64::MAX`; and `rebalance` is invoked, with `value` as pivot,
on the linked intermediate state exactly when that candidate equals
`tag(after)` or the successor's tag. -/
theorem insert_after_tag_and_rebalance_trigger (accept : Nat → Nat → Bool)
    (fuel : Nat) (after value : T) (om : OrderMaintenance T)
    (apos npos : Position T)
    (ha : lookupPos after om.positions = some apos)
    (hn : lookupPos apos.next om.positions = some npos) :
    ∃ mid : OrderMaintenance T,
      (lookupPos value mid.positions).map Position.tag =
        some (if apos.tag = U64MAX then apos.tag else apos.tag + 1) ∧
      mid.front = om.front ∧
      OrderMaintenance.insert_after accept fuel after value om =
        (if (if apos.tag = U64MAX then apos.tag else apos.tag + 1) = apos.tag ∨
            (if apos.tag = U64MAX then apos.tag else apos.tag + 1) = npos.tag
         then OrderMaintenance.rebalance accept fuel value mid
         else some mid) := by
  refine ⟨⟨updatePos apos.next (fun p => { p with prev := value })
      (updatePos after (fun p => { p with next := value })
        (insertKV value
          ⟨after, apos.next, if apos.tag = U64MAX then apos.tag else apos.tag + 1⟩
          om.positions)), om.front⟩, ?_, rfl, ?_⟩
  · dsimp only
    rw [lookupPos_tag_updatePos apos.next (fun p => { p with prev := value })
        (fun _ => rfl),
      lookupPos_tag_updatePos after (fun p => { p with next := value })
        (fun _ => rfl),
      lookupPos_insertKV_self]
    rfl
  · simp only [OrderMaintenance.insert_after, ha, hn]

theorem insert_after_tag_and_rebalance_trigger_witness :
    ∃ mid : OrderMaintenance Nat,
      (lookupPos 1 mid.positions).map Position.tag =
        some (if (0 : Nat) = U64MAX then 0 else 0 + 1) ∧
      mid.front = some 0 ∧
      OrderMaintenance.insert_after (fun _ _ => false) 64 0 1
          ⟨[(0, ⟨0, 0, 0⟩)], some 0⟩ =
        (if (if (0 : Nat) = U64MAX then 0 else 0 + 1) = 0 ∨
            (if (0 : Nat) = U64MAX then 0 else 0 + 1) = 0
         then OrderMaintenance.rebalance (fun _ _ => false) 64 1 mid
         else some mid) :=
  insert_after_tag_and_rebalance_trigger (fun _ _ => false) 64 0 1
    ⟨[(0, ⟨0, 0, 0⟩)], some 0⟩ ⟨0, 0, 0⟩ ⟨0, 0, 0⟩ rfl rfl

/-- Claim C6: `remove(x)` returns whether `x` was present.  When present it
deletes `x`'s record, decreases `len` by exactly 1 (key uniqueness — which
every reachable hash-map table has — is taken as a hypothesis on the
association-list model), leaves every other member's tag unchanged, makes
every subsequent `compare` involving `x` absent, and splices `x`'s `prev`
and `next` neighbours together (`prev.next := x.next`, `next.prev :=
x.prev`, each a no-op when that neighbour is `x` itself).  When absent, the
state — hence `len` — is unchanged and `false` is returned. -/
theorem remove_spec (x : T) (om : OrderMaintenance T) :
    (lookupPos x om.positions = none → OrderMaintenance.remove x om = (om, false)) ∧
    (∀ pos, lookupPos x om.positions = some pos →
      (OrderMaintenance.remove x om).2 = true ∧
      lookupPos x (OrderMaintenance.remove x om).1.positions = none ∧
      ((om.positions.map Prod.fst).Nodup →
        (OrderMaintenance.remove x om).1.positions.length + 1 =
          om.positions.length) ∧
      (∀ y, y ≠ x →
        (lookupPos y (OrderMaintenance.remove x om).1.positions).map Position.tag =
          (lookupPos y om.positions).map Position.tag) ∧
      (∀ y, OrderMaintenance.compare (OrderMaintenance.remove x om).1 x y = none ∧
        OrderMaintenance.compare (OrderMaintenance.remove x om).1 y x = none) ∧
      (pos.prev ≠ x → ∀ pp, lookupPos pos.prev om.positions = some pp →
        (lookupPos pos.prev (OrderMaintenance.remove x om).1.positions).map
          Position.next = some pos.next) ∧
      (pos.next ≠ x → ∀ np, lookupPos pos.next om.positions = some np →
        (lookupPos pos.next (OrderMaintenance.remove x om).1.positions).map
          Position.prev = some pos.prev)) := by
  constructor
  · intro h
    simp [OrderMaintenance.remove, h]
  · intro pos hp
    have hR : OrderMaintenance.remove x om =
        ({ positions :=
            updatePos pos.next (fun p => { p with prev := pos.prev })
              (updatePos pos.prev (fun p => { p with next := pos.next })
                (eraseKey x om.positions)), front := om.front }, true) := by
      simp only [OrderMaintenance.remove, hp]
    rw [hR]
    dsimp only
    have hxnone : lookupPos x
        (updatePos pos.next (fun p => { p with prev := pos.prev })
          (updatePos pos.prev (fun p => { p with next := pos.next })
            (eraseKey x om.positions))) = none := by
      rw [lookupPos_updatePos_eq_none, lookupPos_updatePos_eq_none]
      exact lookupPos_eraseKey_self x _
    refine ⟨rfl, hxnone, ?_, ?_, ?_, ?_, ?_⟩
    · intro hnd
      rw [length_updatePos, length_updatePos]
      exact length_eraseKey_of_nodup hnd hp
    · intro y hy
      rw [lookupPos_tag_updatePos pos.next (fun p => { p with prev := pos.prev })
          (fun _ => rfl),
        lookupPos_tag_updatePos pos.prev (fun p => { p with next := pos.next })
          (fun _ => rfl),
        lookupPos_eraseKey_ne hy]
    · intro y
      constructor
      · simp [OrderMaintenance.compare, hxnone]
      · cases hy : lookupPos y
            (updatePos pos.next (fun p => { p with prev := pos.prev })
              (updatePos pos.prev (fun p => { p with next := pos.next })
                (eraseKey x om.positions))) <;>
          simp [OrderMaintenance.compare, hy, hxnone]
    · intro hpx pp hpp
      have hE : lookupPos pos.prev (eraseKey x om.positions) = some pp := by
        rw [lookupPos_eraseKey_ne hpx]
        exact hpp
      by_cases hpn : pos.prev = pos.next
      · have e : updatePos pos.next (fun p => { p with prev := pos.prev })
            (updatePos pos.prev (fun p => { p with next := pos.next })
              (eraseKey x om.positions)) =
            updatePos pos.prev (fun p => { p with prev := pos.prev })
              (updatePos pos.prev (fun p => { p with next := pos.next })
                (eraseKey x om.positions)) := by
          rw [hpn]
        rw [e, lookupPos_updatePos_self, lookupPos_updatePos_self, hE]
        rfl
      · rw [lookupPos_updatePos_ne hpn, lookupPos_updatePos_self, hE]
        rfl
    · intro hnx np hnp
      have hE : lookupPos pos.next (eraseKey x om.positions) = some np := by
        rw [lookupPos_eraseKey_ne hnx]
        exact hnp
      rw [lookupPos_updatePos_self]
      by_cases hpn : pos.next = pos.prev
      · have e : updatePos pos.prev (fun p => { p with next := pos.next })
            (eraseKey x om.positions) =
            updatePos pos.next (fun p => { p with next := pos.next })
              (eraseKey x om.positions) := by
          rw [hpn]
        rw [e, lookupPos_updatePos_self, hE]
        rfl
      · rw [lookupPos_updatePos_ne hpn, hE]
        rfl

theorem remove_spec_witness :
    OrderMaintenance.remove 9 twoRing = (twoRing, false) ∧
    (OrderMaintenance.remove 1 twoRing).2 = true ∧
    lookupPos 1 (OrderMaintenance.remove 1 twoRing).1.positions = none ∧
    (OrderMaintenance.remove 1 twoRing).1.positions.length + 1 =
      twoRing.positions.length ∧
    (lookupPos 0 (OrderMaintenance.remove 1 twoRing).1.positions).map
      Position.tag = (lookupPos 0 twoRing.positions).map Position.tag ∧
    OrderMaintenance.compare (OrderMaintenance.remove 1 twoRing).1 1 0 = none ∧
    OrderMaintenance.compare (OrderMaintenance.remove 1 twoRing).1 0 1 = none ∧
    (lookupPos 0 (OrderMaintenance.remove 1 twoRing).1.positions).map
      Position.next = some 0 ∧
    (lookupPos 0 (OrderMaintenance.remove 1 twoRing).1.positions).map
      Position.prev = some 0 := by
  obtain ⟨h1, h2, h3, h4, h5, h6, h7⟩ :=
    (remove_spec 1 twoRing).2 ⟨0, 0, 1⟩ (by rfl)
  exact ⟨(remove_spec 9 twoRing).1 (by rfl), h1, h2, h3 (by decide),
    h4 0 (by decide), (h5 0).1, (h5 0).2,
    h6 (by decide) ⟨1, 1, 0⟩ (by rfl), h7 (by decide) ⟨1, 1, 0⟩ (by rfl)⟩

/-- Claim C7: the concrete scenario seed(bob); insert_after(bob, carol);
insert_after(bob, james) — which exhausts local tag room and triggers the
one rebalance — then insert_after(carol, gene), yields front-to-back order
bob, james, carol, gene and the expected comparisons.  The only
floating-point state in the source, the rebalance threshold, enters solely
through the abstracted acceptance test `accept`; the hypotheses state the
two facts true of the real `f64` run — a zero increment never reaches the
positive threshold, and some widening iteration in `[2, 63]` is accepted
(the run terminates) — and the conclusion holds for every such oracle. -/
theorem scenario_order_and_compares (accept : Nat → Nat → Bool) (fuel : Nat)
    (hz : ∀ k, accept k 0 = false)
    (hex : ∃ k, 2 ≤ k ∧ k ≤ 63 ∧ accept k (2 ^ k / 3) = true)
    (hfuel : 64 ≤ fuel) :
    ∃ om' : OrderMaintenance Person,
      runOps accept fuel
          [Op.insert_only Person.bob, Op.insert_after Person.bob Person.carol,
           Op.insert_after Person.bob Person.james,
           Op.insert_after Person.carol Person.gene]
          OrderMaintenance.new = some om' ∧
      (om'.iter_values_with_tags).map (List.map Prod.fst) =
        some [Person.bob, Person.james, Person.carol, Person.gene] ∧
      OrderMaintenance.compare om' Person.bob Person.carol = some Ordering.lt ∧
      OrderMaintenance.compare om' Person.bob Person.james = some Ordering.lt ∧
      OrderMaintenance.compare om' Person.bob Person.gene = some Ordering.lt ∧
      OrderMaintenance.compare om' Person.james Person.carol = some Ordering.lt ∧
      OrderMaintenance.compare om' Person.james Person.gene = some Ordering.lt ∧
      OrderMaintenance.compare om' Person.carol Person.gene = some Ordering.lt ∧
      OrderMaintenance.compare om' Person.carol Person.james = some Ordering.gt ∧
      OrderMaintenance.compare om' Person.bob Person.bob = some Ordering.eq ∧
      OrderMaintenance.compare om' Person.carol Person.carol = some Ordering.eq ∧
      OrderMaintenance.compare om' Person.james Person.james = some Ordering.eq ∧
      OrderMaintenance.compare om' Person.gene Person.gene = some Ordering.eq := by
  obtain ⟨i, h1, h2, hreb⟩ := rebalance_scenario accept fuel hz hex hfuel
  have hrun : runOps accept fuel
      [Op.insert_only Person.bob, Op.insert_after Person.bob Person.carol,
       Op.insert_after Person.bob Person.james,
       Op.insert_after Person.carol Person.gene]
      OrderMaintenance.new = some ⟨finalPs i, some Person.bob⟩ := by
    rw [runOps_cons (show applyOp accept fuel OrderMaintenance.new
        (Op.insert_only Person.bob) =
        some ⟨[(Person.bob, ⟨Person.bob, Person.bob, 0⟩)], some Person.bob⟩
        from rfl)]
    rw [runOps_cons (show applyOp accept fuel
        ⟨[(Person.bob, ⟨Person.bob, Person.bob, 0⟩)], some Person.bob⟩
        (Op.insert_after Person.bob Person.carol) =
        some ⟨[(Person.bob, ⟨Person.carol, Person.carol, 0⟩),
               (Person.carol, ⟨Person.bob, Person.bob, 1⟩)], some Person.bob⟩
        from rfl)]
    rw [runOps_cons (show applyOp accept fuel
        ⟨[(Person.bob, ⟨Person.carol, Person.carol, 0⟩),
          (Person.carol, ⟨Person.bob, Person.bob, 1⟩)], some Person.bob⟩
        (Op.insert_after Person.bob Person.james) =
        some ⟨relPs i, some Person.bob⟩ from hreb)]
    rw [runOps_cons (show applyOp accept fuel ⟨relPs i, some Person.bob⟩
        (Op.insert_after Person.carol Person.gene) =
        some ⟨finalPs i, some Person.bob⟩
        from insert_gene accept fuel i h1 h2)]
    rfl
  refine ⟨⟨finalPs i, some Person.bob⟩, hrun, rfl, ?_, ?_, ?_, ?_, ?_, ?_, ?_,
    ?_, ?_, ?_, ?_⟩
  · rw [show OrderMaintenance.compare ⟨finalPs i, some Person.bob⟩ Person.bob
        Person.carol = some (natCmp 0 (2 * i)) from rfl,
      natCmp_lt (by omega)]
  · rw [show OrderMaintenance.compare ⟨finalPs i, some Person.bob⟩ Person.bob
        Person.james = some (natCmp 0 i) from rfl,
      natCmp_lt (by omega)]
  · rw [show OrderMaintenance.compare ⟨finalPs i, some Person.bob⟩ Person.bob
        Person.gene = some (natCmp 0 (2 * i + 1)) from rfl,
      natCmp_lt (by omega)]
  · rw [show OrderMaintenance.compare ⟨finalPs i, some Person.bob⟩ Person.james
        Person.carol = some (natCmp i (2 * i)) from rfl,
      natCmp_lt (by omega)]
  · rw [show OrderMaintenance.compare ⟨finalPs i, some Person.bob⟩ Person.james
        Person.gene = some (natCmp i (2 * i + 1)) from rfl,
      natCmp_lt (by omega)]
  · rw [show OrderMaintenance.compare ⟨finalPs i, some Person.bob⟩ Person.carol
        Person.gene = some (natCmp (2 * i) (2 * i + 1)) from rfl,
      natCmp_lt (by omega)]
  · rw [show OrderMaintenance.compare ⟨finalPs i, some Person.bob⟩ Person.carol
        Person.james = some (natCmp (2 * i) i) from rfl,
      natCmp_gt (by omega)]
  · rw [show OrderMaintenance.compare ⟨finalPs i, some Person.bob⟩ Person.bob
        Person.bob = some (natCmp 0 0) from rfl, natCmp_self]
  · rw [show OrderMaintenance.compare ⟨finalPs i, some Person.bob⟩ Person.carol
        Person.carol = some (natCmp (2 * i) (2 * i)) from rfl, natCmp_self]
  · rw [show OrderMaintenance.compare ⟨finalPs i, some Person.bob⟩ Person.james
        Person.james = some (natCmp i i) from rfl, natCmp_self]
  · rw [show OrderMaintenance.compare ⟨finalPs i, some Person.bob⟩ Person.gene
        Person.gene = some (natCmp (2 * i + 1) (2 * i + 1)) from rfl,
      natCmp_self]

theorem scenario_order_and_compares_witness :
    (∀ k, scenAccept k 0 = false) ∧
    (∃ k, 2 ≤ k ∧ k ≤ 63 ∧ scenAccept k (2 ^ k / 3) = true) ∧
    64 ≤ 64 ∧
    (∃ om' : OrderMaintenance Person,
      runOps scenAccept 64
          [Op.insert_only Person.bob, Op.insert_after Person.bob Person.carol,
           Op.insert_after Person.bob Person.james,
           Op.insert_after Person.carol Person.gene]
          OrderMaintenance.new = some om' ∧
      (om'.iter_values_with_tags).map (List.map Prod.fst) =
        some [Person.bob, Person.james, Person.carol, Person.gene] ∧
      OrderMaintenance.compare om' Person.bob Person.carol = some Ordering.lt ∧
      OrderMaintenance.compare om' Person.bob Person.james = some Ordering.lt ∧
      OrderMaintenance.compare om' Person.bob Person.gene = some Ordering.lt ∧
      OrderMaintenance.compare om' Person.james Person.carol = some Ordering.lt ∧
      OrderMaintenance.compare om' Person.james Person.gene = some Ordering.lt ∧
      OrderMaintenance.compare om' Person.carol Person.gene = some Ordering.lt ∧
      OrderMaintenance.compare om' Person.carol Person.james = some Ordering.gt ∧
      OrderMaintenance.compare om' Person.bob Person.bob = some Ordering.eq ∧
      OrderMaintenance.compare om' Person.carol Person.carol = some Ordering.eq ∧
      OrderMaintenance.compare om' Person.james Person.james = some Ordering.eq ∧
      OrderMaintenance.compare om' Person.gene Person.gene = some Ordering.eq) := by
  have hz : ∀ k, scenAccept k 0 = false := by
    intro k
    simp [scenAccept]
  have hex : ∃ k, 2 ≤ k ∧ k ≤ 63 ∧ scenAccept k (2 ^ k / 3) = true :=
    ⟨2, by norm_num, by norm_num, by decide⟩
  exact ⟨hz, hex, le_refl 64,
    scenario_order_and_compares scenAccept 64 hz hex (le_refl 64)⟩

end ClaimTheorems
